import Mathlib

/-!
Verification of the coname keyserver core: a shallow embedding of the
ECVRF implementation (src/vrf/vrf_ed25519/vrf_ed25519.go), the raft
log storage (src/server/replication/raftlog/raftlog.go), the
preserve-encoding wrapper (src/proto/SignedEntryUpdate.pr.go) and the
UpdateProfile stub, together with theorems settling the frozen claims.

Machine bytes are modelled as natural numbers below 256 in a `List Nat`;
big integers (`math/big.Int`) are `Nat`/`Int`.  The edwards25519
primitive layer and the hash functions live outside the repository
sources, so they are modelled from the spec (each such definition says
so in its doc comment).
-/

namespace Coname

/-- Byte strings: each element is intended to lie below 256. -/
abbrev Bytes : Type := List Nat

/-- Predicate that a byte string is well formed (every byte below 256). -/
def BytesOK (bs : Bytes) : Prop := ∀ b ∈ bs, b < 256

instance : DecidablePred BytesOK := fun bs =>
  inferInstanceAs (Decidable (∀ b ∈ bs, b < 256))

/-- Big-endian interpretation of a byte string as a natural number
(vrf_ed25519.go `OS2IP`, via `big.Int.SetBytes`). -/
def OS2IP (os : Bytes) : Nat := os.foldl (fun a b => a * 256 + b) 0

/-- Little-endian interpretation of a byte string as a natural number:
the value of a `[32]byte` field element (used to model `F2IP`, which
byte-reverses and then calls `OS2IP`). -/
def leVal (os : Bytes) : Nat := os.foldr (fun b a => b + 256 * a) 0

/-- Fixed-width little-endian byte decomposition of a natural number:
`natLEfix w n` is the `w`-byte little-endian encoding of `n % 2^(8*w)`.
Models writing a number into a `[w]byte` array least significant byte
first (edwards25519 `ToBytes` output shape, `IP2F`). -/
def natLEfix : Nat → Nat → Bytes
  | 0, _ => []
  | w + 1, n => n % 256 :: natLEfix w (n / 256)

/-- Minimal big-endian byte representation, most significant byte first,
empty for zero — the value of Go `big.Int.Bytes()`.  Structured with an
explicit fuel argument (the number itself suffices) so that it reduces
in the kernel. -/
def natBEminAux : Nat → Nat → Bytes
  | 0, _ => []
  | fuel + 1, n => if n = 0 then [] else natBEminAux fuel (n / 256) ++ [n % 256]

/-- Minimal big-endian bytes of a natural number (Go `big.Int.Bytes()`). -/
def natBEmin (n : Nat) : Bytes := natBEminAux n n

/-- Conversion of a big integer to a byte string of length `k`
(vrf_ed25519.go `I2OSP`): zero-pad on the left when the minimal
representation is shorter than `k`, otherwise keep the first `k` bytes. -/
def I2OSP (n k : Nat) : Bytes :=
  let os := natBEmin n
  if k > os.length then List.replicate (k - os.length) 0 ++ os else os.take k

theorem natLEfix_length (w n : Nat) : (natLEfix w n).length = w := by
  induction w generalizing n with
  | zero => rfl
  | succ w ih => simp [natLEfix, ih]

theorem natLEfix_lt (w n : Nat) : BytesOK (natLEfix w n) := by
  induction w generalizing n with
  | zero => intro b hb; simp [natLEfix] at hb
  | succ w ih =>
    intro b hb
    simp only [natLEfix, List.mem_cons] at hb
    rcases hb with h | h
    · subst h; exact Nat.mod_lt _ (by norm_num)
    · exact ih _ b h

theorem leVal_natLEfix (w n : Nat) (h : n < 2 ^ (8 * w)) :
    leVal (natLEfix w n) = n := by
  induction w generalizing n with
  | zero => simp at h; simp [natLEfix, leVal, h]
  | succ w ih =>
    have hdiv : n / 256 < 2 ^ (8 * w) := by
      apply Nat.div_lt_of_lt_mul
      have : 2 ^ (8 * (w + 1)) = 2 ^ (8 * w) * 256 := by ring
      omega
    simp only [natLEfix, leVal, List.foldr_cons]
    have := ih (n / 256) hdiv
    simp only [leVal] at this
    rw [this]
    omega

theorem OS2IP_foldl (a : Nat) (ys : Bytes) :
    ys.foldl (fun a b => a * 256 + b) a = a * 256 ^ ys.length + OS2IP ys := by
  induction ys generalizing a with
  | nil => simp [OS2IP]
  | cons y ys ih =>
    simp only [List.foldl_cons, List.length_cons, OS2IP]
    rw [ih (a * 256 + y), ih (0 * 256 + y)]
    ring

theorem OS2IP_append (xs ys : Bytes) :
    OS2IP (xs ++ ys) = OS2IP xs * 256 ^ ys.length + OS2IP ys := by
  simp only [OS2IP, List.foldl_append]
  exact OS2IP_foldl _ ys

theorem OS2IP_replicate_zero (k : Nat) : OS2IP (List.replicate k 0) = 0 := by
  induction k with
  | zero => rfl
  | succ k ih =>
    have : List.replicate (k + 1) 0 = (0 : Nat) :: List.replicate k 0 := rfl
    simp only [this, OS2IP, List.foldl_cons]
    simpa [OS2IP] using ih

theorem OS2IP_lt (os : Bytes) (h : BytesOK os) : OS2IP os < 256 ^ os.length := by
  induction os with
  | nil => simp [OS2IP]
  | cons b bs ih =>
    have hb : b < 256 := h b (List.mem_cons_self b bs)
    have hbs := ih (fun x hx => h x (List.mem_cons_of_mem b hx))
    have h4 : OS2IP (b :: bs) = b * 256 ^ bs.length + OS2IP bs := by
      simp only [OS2IP, List.foldl_cons]
      rw [OS2IP_foldl]
      simp only [OS2IP]
      ring
    have h1 : b * 256 ^ bs.length ≤ 255 * 256 ^ bs.length :=
      Nat.mul_le_mul_right _ (by omega)
    have h2 : 256 ^ (bs.length + 1) = 256 * 256 ^ bs.length := by ring
    rw [List.length_cons, h4]
    omega

theorem natBEminAux_OS2IP (fuel n : Nat) (h : n ≤ fuel) :
    OS2IP (natBEminAux fuel n) = n := by
  induction fuel generalizing n with
  | zero => simp only [Nat.le_zero] at h; simp [natBEminAux, OS2IP, h]
  | succ fuel ih =>
    by_cases hz : n = 0
    · simp [natBEminAux, hz, OS2IP]
    · have hlt : n / 256 ≤ fuel := by
        have : n / 256 < n := Nat.div_lt_self (Nat.pos_of_ne_zero hz) (by norm_num)
        omega
      simp only [natBEminAux, hz, if_false]
      rw [OS2IP_append, ih _ hlt]
      simp only [List.length_cons, List.length_nil, pow_one, OS2IP, List.foldl_cons,
        List.foldl_nil]
      omega

theorem natBEminAux_length (fuel n k : Nat) (h : n ≤ fuel) (hk : n < 256 ^ k) :
    (natBEminAux fuel n).length ≤ k := by
  induction fuel generalizing n k with
  | zero => simp only [Nat.le_zero] at h; simp [natBEminAux, h]
  | succ fuel ih =>
    by_cases hz : n = 0
    · simp [natBEminAux, hz]
    · have hkpos : 0 < k := by
        rcases Nat.eq_zero_or_pos k with h0 | h0
        · subst h0; simp at hk; omega
        · exact h0
      have hlt : n / 256 ≤ fuel := by
        have : n / 256 < n := Nat.div_lt_self (Nat.pos_of_ne_zero hz) (by norm_num)
        omega
      have hdk : n / 256 < 256 ^ (k - 1) := by
        apply Nat.div_lt_of_lt_mul
        have : 256 ^ (k - 1) * 256 = 256 ^ k := by
          rw [← pow_succ]
          congr 1
          omega
        omega
      simp only [natBEminAux, hz, if_false, List.length_append, List.length_cons,
        List.length_nil]
      have := ih (n / 256) (k - 1) hlt hdk
      omega

theorem natBEminAux_ok (fuel n : Nat) : BytesOK (natBEminAux fuel n) := by
  induction fuel generalizing n with
  | zero => intro b hb; simp [natBEminAux] at hb
  | succ fuel ih =>
    intro b hb
    by_cases hz : n = 0
    · simp [natBEminAux, hz] at hb
    · simp only [natBEminAux, hz, if_false, List.mem_append, List.mem_cons,
        List.not_mem_nil, or_false] at hb
      rcases hb with h | h
      · exact ih _ b h
      · subst h; exact Nat.mod_lt _ (by norm_num)

theorem I2OSP_length (n k : Nat) : (I2OSP n k).length = k := by
  simp only [I2OSP]
  split
  · simp; omega
  · simp; omega

theorem I2OSP_ok (n k : Nat) : BytesOK (I2OSP n k) := by
  simp only [I2OSP]
  split
  · intro b hb
    rcases List.mem_append.1 hb with h | h
    · have := List.eq_of_mem_replicate h; omega
    · exact natBEminAux_ok n n b h
  · intro b hb
    exact natBEminAux_ok n n b (List.mem_of_mem_take hb)

theorem OS2IP_I2OSP (n k : Nat) (h : n < 256 ^ k) : OS2IP (I2OSP n k) = n := by
  have hlen : (natBEmin n).length ≤ k := natBEminAux_length n n k le_rfl h
  have hval : OS2IP (natBEmin n) = n := natBEminAux_OS2IP n n le_rfl
  simp only [I2OSP, natBEmin] at *
  split
  · rw [OS2IP_append, OS2IP_replicate_zero, hval]; ring
  · rename_i hnk
    have : (natBEminAux n n).length = k := by omega
    rw [List.take_of_length_le (by omega), hval]

/-- Group order of the edwards25519 prime-order subgroup
(vrf_ed25519.go constant `qs`): 2^252 + 27742317777372353535851937790883648493. -/
def qn : Nat := 2 ^ 252 + 27742317777372353535851937790883648493

instance : NeZero qn := ⟨by decide⟩

/-- Modelled from the spec: the edwards25519 prime-order subgroup used by
the primitive layer (§4.1; the `edwards25519` package is outside src/).
The subgroup is cyclic of order q, so it is modelled as the additive
group of residues mod q; the base point is a generator. -/
abbrev Point : Type := ZMod qn

/-- Modelled from the spec: the base point G (vrf_ed25519.go `G()`),
a generator of the subgroup, taken to be the residue 1. -/
def ptG : Point := 1

/-- Modelled from the spec: variable-time scalar multiplication
(`GeScalarMult`, `GeScalarMultBase`, `GeDoubleScalarMultVartime`); a
32-byte little-endian scalar acts through its numeric value. -/
def ptMul (a : Nat) (P : Point) : Point := (a : Point) * P

/-- Modelled from the spec: point addition (vrf_ed25519.go `GeAdd`). -/
def ptAdd (P Q : Point) : Point := P + Q

/-- Modelled from the spec: the 32-byte compressed point encoding
(edwards25519 `ToBytes`), an injective 32-byte encoding of the point; in
the model the little-endian bytes of the residue value.  As the residue
is below q < 2^253, byte 31 of this encoding has its top bit clear. -/
def encodePoint (P : Point) : Bytes := natLEfix 32 (ZMod.val P)

/-- Modelled from the spec: point decoding (edwards25519 `FromBytes`),
a partial inverse of `encodePoint` rejecting non-canonical encodings. -/
def pointFromBytes (os : Bytes) : Option Point :=
  if leVal os < qn then some ((leVal os : Nat) : Point) else none

/-- Prepend the sign octet (vrf_ed25519.go `S2OS`): the top bit of byte
31 emitted as a leading 2 (positive) or 3 (negative) octet. -/
def S2OS (s : Bytes) : Bytes := (s.getD 31 0 / 128 + 2) :: s

/-- Encode an extended group element with its sign octet
(vrf_ed25519.go `ECP2OS`). -/
def ECP2OS (P : Point) : Bytes := S2OS (encodePoint P)

/-- Encode a projective group element with its sign octet
(vrf_ed25519.go `ECP2OSProj`); projective and extended elements coincide
in the model. -/
def ECP2OSProj (P : Point) : Bytes := S2OS (encodePoint P)

/-- Decode a 32-byte string into a subgroup point (vrf_ed25519.go
`OS2ECP`): the input is copied into a 32-byte buffer (zero padded), the
top bit of byte 31 is overridden with `sign`, the buffer is decoded
(`FromBytes`), and the point is required to lie in the prime-order
subgroup — multiplication by q must give the identity (in the model of
the subgroup this check always succeeds). -/
def OS2ECP (os : Bytes) (sign : Nat) : Option Point :=
  let buf := os.take 32 ++ List.replicate (32 - os.length) 0
  let b31 := buf.getD 31 0
  let buf2 := buf.take 31 ++ [sign % 2 * 128 + b31 % 128]
  match pointFromBytes buf2 with
  | none => none
  | some P => if ptMul qn P = 0 then some P else none

/-- Clamp the SHA-512 digest into an Ed25519 secret scalar's 32 bytes
(vrf_ed25519.go `expandSecret` body): digest[0] &= 248,
digest[31] &= 127, digest[31] |= 64 — written with the equivalent
arithmetic on byte values. -/
def clamp (digest : Bytes) : Bytes :=
  let d := digest.take 32 ++ List.replicate (32 - digest.length) 0
  (d.getD 0 0 % 256 / 8 * 8) :: ((d.drop 1).take 30 ++ [64 + d.getD 31 0 % 64])

/-- Expand an Ed25519 private key into its secret scalar
(vrf_ed25519.go `expandSecret`, the standard key schedule): the clamped
SHA-512 digest of the first 32 bytes of the key, read little-endian. -/
def expandSecret (sha512 : Bytes → Bytes) (sk : Bytes) : Nat :=
  leVal (clamp (sha512 (sk.take 32)))

/-- Modelled from the spec: the public key that the standard Ed25519 key
schedule (`ed25519.GenerateKey`, outside src/) derives from a seed: the
encoded multiple of the base point by the expanded secret scalar. -/
def edPublicKey (sha512 : Bytes → Bytes) (seed : Bytes) : Bytes :=
  encodePoint (ptMul (expandSecret sha512 seed) ptG)

/-- Hash a sequence of encoded points to an integer (vrf_ed25519.go
`ECVRF_hash_points`): SHA-256 of the concatenation, truncated to the
first 16 bytes, read big-endian. -/
def ECVRF_hash_points (sha256 : Bytes → Bytes) (ps : List Bytes) : Nat :=
  OS2IP ((sha256 ps.flatten).take 16)

/-- One counter step of `ECVRF_hash_to_curve`: SHA-256 of
`m ‖ pk ‖ I2OSP(i, 4)`, decoded first with sign 0 and then sign 1. -/
def hashToCurveTry (sha256 : Bytes → Bytes) (m pk : Bytes) (i : Nat) :
    Option Point :=
  let h := sha256 (m ++ pk ++ I2OSP i 4)
  match OS2ECP h 0 with
  | some P => some P
  | none => OS2ECP h 1

/-- The counter loop of `ECVRF_hash_to_curve`, with the remaining
iteration count as first argument. -/
def hashToCurveLoop (sha256 : Bytes → Bytes) (m pk : Bytes) :
    Nat → Nat → Option Point
  | 0, _ => none
  | fuel + 1, i =>
    match hashToCurveTry sha256 m pk i with
    | some P => some P
    | none => hashToCurveLoop sha256 m pk fuel (i + 1)

/-- Iteration limit of the hash-to-curve loop (vrf_ed25519.go `limit`). -/
def limit : Nat := 10000

/-- Hash a message and public key onto the curve (vrf_ed25519.go
`ECVRF_hash_to_curve`): iterate a 32-bit big-endian counter from 0 below
`limit`, return the first successful decode; `none` models the fatal
panic when the limit is exhausted. -/
def ECVRF_hash_to_curve (sha256 : Bytes → Bytes) (m pk : Bytes) :
    Option Point :=
  hashToCurveLoop sha256 m pk limit 0

/-- The VRF prover (vrf_ed25519.go `ECVRF_prove`).  The ephemeral
Ed25519 key pair drawn via `ed25519.GenerateKey` inside the Go function
enters as the random seed `kseed`, its public half derived by the
standard key schedule (modelled from the spec).  `none` models the fatal
`hash_to_curve` failure. -/
def ECVRF_prove (sha512 sha256 : Bytes → Bytes) (pk sk m kseed : Bytes) :
    Option Bytes :=
  let x := expandSecret sha512 sk
  match ECVRF_hash_to_curve sha256 m pk with
  | none => none
  | some h =>
    let r := ECP2OS (ptMul x h)
    let kp := edPublicKey sha512 kseed
    let k := expandSecret sha512 kseed
    let c := ECVRF_hash_points sha256
      [ECP2OS ptG, ECP2OS h, S2OS pk, r, S2OS kp, ECP2OS (ptMul k h)]
    let s := (((k : Int) - (c : Int) * (x : Int)) % (qn : Int)).toNat
    some (r ++ I2OSP c 16 ++ I2OSP s 32)

/-- Extract the VRF index from a proof (vrf_ed25519.go
`ECVRF_proof2hash`): bytes π[1..33], the 32-byte encoded Γ. -/
def ECVRF_proof2hash (pi : Bytes) : Bytes := (pi.drop 1).take 32

/-- Decode a proof into (Γ, c, s) (vrf_ed25519.go `ECVRF_decode_proof`).
The Go code byte-reverses the big-endian c and s segments into
little-endian field elements; the model keeps their numeric values. -/
def ECVRF_decode_proof (pi : Bytes) : Option (Point × Nat × Nat) :=
  let sign := pi.getD 0 0
  if sign ≠ 2 ∧ sign ≠ 3 then none
  else
    match OS2ECP ((pi.drop 1).take 32) (sign - 2) with
    | none => none
    | some r =>
      some (r, OS2IP ((pi.drop 33).take 16), OS2IP ((pi.drop 49).take 32))

/-- The VRF verifier (vrf_ed25519.go `ECVRF_verify`): `none` models an
error return (proof decode failure or malformed public key) or the
fatal hash_to_curve panic; `some b` models result `(b, nil)`. -/
def ECVRF_verify (sha256 : Bytes → Bytes) (pk pi m : Bytes) : Option Bool :=
  match ECVRF_decode_proof pi with
  | none => none
  | some (r, c, s) =>
    match OS2ECP pk (pk.getD 31 0 / 128) with
    | none => none
    | some P =>
      let u := ptAdd (ptMul c P) (ptMul s ptG)
      match ECVRF_hash_to_curve sha256 m pk with
      | none => none
      | some h =>
        let v := ptAdd (ptMul c r) (ptMul s h)
        let c2 := ECVRF_hash_points sha256
          [ECP2OS ptG, ECP2OS h, S2OS pk, ECP2OS r, ECP2OSProj u, ECP2OS v]
        some (decide (c2 = c))

theorem qn_lt : qn < 2 ^ 253 := by decide

theorem natLEfix_getD (w n i : Nat) (h : i < w) :
    (natLEfix w n).getD i 0 = n / 256 ^ i % 256 := by
  induction w generalizing n i with
  | zero => omega
  | succ w ih =>
    cases i with
    | zero => simp [natLEfix]
    | succ i =>
      have : i < w := by omega
      simp only [natLEfix, List.getD_cons_succ]
      rw [ih (n / 256) i this, Nat.div_div_eq_div_mul]
      congr 2
      rw [pow_succ]
      ring

theorem encodePoint_length (P : Point) : (encodePoint P).length = 32 :=
  natLEfix_length 32 _

theorem encodePoint_ok (P : Point) : BytesOK (encodePoint P) :=
  natLEfix_lt 32 _

theorem encodePoint_getD31_lt (P : Point) : (encodePoint P).getD 31 0 < 32 := by
  have hval : ZMod.val P < qn := ZMod.val_lt P
  have h32 : qn < 32 * 256 ^ 31 := by decide
  rw [encodePoint, natLEfix_getD 32 _ 31 (by omega)]
  have : ZMod.val P / 256 ^ 31 < 32 := Nat.div_lt_of_lt_mul (by omega)
  omega

theorem leVal_encodePoint (P : Point) : leVal (encodePoint P) = ZMod.val P := by
  have hval : ZMod.val P < qn := ZMod.val_lt P
  have h256 : qn < 2 ^ (8 * 32) := by decide
  exact leVal_natLEfix 32 _ (by omega)

theorem take_append_getD (l : Bytes) (n : Nat) (h : l.length = n + 1) :
    l.take n ++ [l.getD n 0] = l := by
  induction l generalizing n with
  | nil => simp at h
  | cons b bs ih =>
    cases n with
    | zero =>
      have : bs = [] := List.eq_nil_of_length_eq_zero (by simpa using h)
      simp [this]
    | succ n =>
      have hlen : bs.length = n + 1 := by simpa using h
      simp only [List.take_succ_cons, List.getD_cons_succ, List.cons_append,
        List.cons.injEq, true_and]
      exact ih n hlen

theorem ptMul_qn (P : Point) : ptMul qn P = 0 := by
  simp [ptMul, ZMod.natCast_self]

theorem OS2ECP_of_len32 (os : Bytes) (hlen : os.length = 32)
    (hb31 : os.getD 31 0 < 128) (hlt : leVal os < qn) :
    OS2ECP os 0 = some ((leVal os : Nat) : Point) := by
  have hbuf : os.take 32 ++ List.replicate (32 - os.length) 0 = os := by
    rw [hlen, List.take_of_length_le (le_of_eq hlen)]
    simp
  simp only [OS2ECP, hbuf]
  have hsign : 0 % 2 * 128 + os.getD 31 0 % 128 = os.getD 31 0 := by
    rw [Nat.mod_eq_of_lt hb31]
    omega
  rw [hsign, take_append_getD os 31 (by omega)]
  simp only [pointFromBytes, hlt, if_true, ptMul_qn]

theorem OS2ECP_encodePoint (P : Point) : OS2ECP (encodePoint P) 0 = some P := by
  have hb31 := encodePoint_getD31_lt P
  rw [OS2ECP_of_len32 _ (encodePoint_length P) (by omega)
    (by rw [leVal_encodePoint]; exact ZMod.val_lt P)]
  rw [leVal_encodePoint, ZMod.natCast_rightInverse P]

theorem ECP2OS_eq (P : Point) : ECP2OS P = 2 :: encodePoint P := by
  have hb31 := encodePoint_getD31_lt P
  have hdiv : (encodePoint P).getD 31 0 / 128 = 0 := Nat.div_eq_of_lt (by omega)
  unfold ECP2OS S2OS
  rw [hdiv]

theorem ECP2OS_length (P : Point) : (ECP2OS P).length = 33 := by
  rw [ECP2OS_eq]
  simp [encodePoint_length]

theorem hash_points_lt (sha256 : Bytes → Bytes) (hsha : ∀ bs, BytesOK (sha256 bs))
    (ps : List Bytes) : ECVRF_hash_points sha256 ps < 2 ^ 128 := by
  have h1 : BytesOK ((sha256 ps.flatten).take 16) := fun b hb =>
    hsha _ b (List.mem_of_mem_take hb)
  have h2 := OS2IP_lt _ h1
  have h3 : ((sha256 ps.flatten).take 16).length ≤ 16 := by
    simp [List.length_take]
  calc ECVRF_hash_points sha256 ps
      < 256 ^ ((sha256 ps.flatten).take 16).length := h2
    _ ≤ 256 ^ 16 := Nat.pow_le_pow_right (by norm_num) h3
    _ = 2 ^ 128 := by norm_num

theorem s_toNat_lt (a : Int) : ((a % (qn : Int)).toNat) < qn := by
  have hq : (0 : Int) < (qn : Int) := by
    have : 0 < qn := Nat.pos_of_ne_zero (NeZero.ne qn)
    exact_mod_cast this
  have h1 := Int.emod_lt_of_pos a hq
  have h2 := Int.emod_nonneg a (ne_of_gt hq)
  omega

theorem cast_emod_toNat (a : Int) :
    (((a % (qn : Int)).toNat : Nat) : Point) = (a : Point) := by
  have hq : (0 : Int) < (qn : Int) := by
    have : 0 < qn := Nat.pos_of_ne_zero (NeZero.ne qn)
    exact_mod_cast this
  have h0 : (0 : Int) ≤ a % (qn : Int) := Int.emod_nonneg a (ne_of_gt hq)
  have h1 : (((a % (qn : Int)).toNat : Nat) : Int) = a % (qn : Int) :=
    Int.toNat_of_nonneg h0
  calc (((a % (qn : Int)).toNat : Nat) : Point)
      = ((((a % (qn : Int)).toNat : Nat) : Int) : Point) := by
        rw [Int.cast_natCast]
    _ = ((a % (qn : Int) : Int) : Point) := by rw [h1]
    _ = (a : Point) := ZMod.intCast_mod a qn

theorem ptMul_decomp (c x s k : Nat)
    (hs : ((s : Nat) : Point) = (k : Point) - (c : Point) * (x : Point))
    (P : Point) : ptAdd (ptMul c (ptMul x P)) (ptMul s P) = ptMul k P := by
  unfold ptAdd ptMul
  rw [hs]
  ring

/-- Abbreviation for the challenge scalar c computed inside `ECVRF_prove`
at curve point h. -/
def proveC (sha512 sha256 : Bytes → Bytes) (pk sk kseed : Bytes) (h : Point) :
    Nat :=
  ECVRF_hash_points sha256 [ECP2OS ptG, ECP2OS h, S2OS pk,
    ECP2OS (ptMul (expandSecret sha512 sk) h), S2OS (edPublicKey sha512 kseed),
    ECP2OS (ptMul (expandSecret sha512 kseed) h)]

/-- Abbreviation for the response scalar s = k - c·x mod q computed
inside `ECVRF_prove` at curve point h. -/
def proveS (sha512 sha256 : Bytes → Bytes) (pk sk kseed : Bytes) (h : Point) :
    Nat :=
  (((expandSecret sha512 kseed : Int)
    - (proveC sha512 sha256 pk sk kseed h : Int)
    * (expandSecret sha512 sk : Int)) % (qn : Int)).toNat

theorem ECVRF_prove_some (sha512 sha256 : Bytes → Bytes)
    (pk sk m kseed pi : Bytes)
    (hpi : ECVRF_prove sha512 sha256 pk sk m kseed = some pi) :
    ∃ h, ECVRF_hash_to_curve sha256 m pk = some h ∧
      pi = ECP2OS (ptMul (expandSecret sha512 sk) h)
        ++ (I2OSP (proveC sha512 sha256 pk sk kseed h) 16
        ++ I2OSP (proveS sha512 sha256 pk sk kseed h) 32) := by
  unfold ECVRF_prove at hpi
  cases hhc : ECVRF_hash_to_curve sha256 m pk with
  | none => rw [hhc] at hpi; simp at hpi
  | some h =>
    rw [hhc] at hpi
    simp only [Option.some.injEq] at hpi
    exact ⟨h, rfl, by rw [← hpi]; simp [proveC, proveS, List.append_assoc]⟩

theorem ECVRF_decode_layout (Γ : Point) (c s : Nat)
    (hc : c < 2 ^ 128) (hsq : s < qn) :
    ECVRF_decode_proof (ECP2OS Γ ++ (I2OSP c 16 ++ I2OSP s 32))
      = some (Γ, c, s) := by
  have hA : (ECP2OS Γ).length = 33 := ECP2OS_length Γ
  have hB : (I2OSP c 16).length = 16 := I2OSP_length c 16
  have hgetD :
      (ECP2OS Γ ++ (I2OSP c 16 ++ I2OSP s 32)).getD 0 0 = 2 := by
    rw [ECP2OS_eq]
    rfl
  have hdrop1 :
      ((ECP2OS Γ ++ (I2OSP c 16 ++ I2OSP s 32)).drop 1).take 32
        = encodePoint Γ := by
    rw [ECP2OS_eq]
    simp only [List.cons_append, List.drop_succ_cons, List.drop_zero]
    rw [← List.append_assoc]
    rw [List.take_append_of_le_length (by simp [encodePoint_length])]
    exact List.take_of_length_le (le_of_eq (encodePoint_length Γ))
  have hdrop33 :
      (ECP2OS Γ ++ (I2OSP c 16 ++ I2OSP s 32)).drop 33
        = I2OSP c 16 ++ I2OSP s 32 := List.drop_left' hA
  have hdrop49 :
      (ECP2OS Γ ++ (I2OSP c 16 ++ I2OSP s 32)).drop 49 = I2OSP s 32 := by
    have h1 := List.drop_drop 16 33 (ECP2OS Γ ++ (I2OSP c 16 ++ I2OSP s 32))
    have : (33 : Nat) + 16 = 49 := by norm_num
    rw [this] at h1
    rw [← h1, hdrop33, List.drop_left' hB]
  unfold ECVRF_decode_proof
  rw [hgetD]
  simp only [show ¬((2 : Nat) ≠ 2 ∧ (2 : Nat) ≠ 3) by simp, if_false]
  rw [hdrop1]
  have hsign : (2 : Nat) - 2 = 0 := rfl
  rw [hsign, OS2ECP_encodePoint]
  rw [hdrop33, List.take_left' hB, hdrop49]
  rw [List.take_of_length_le (le_of_eq (I2OSP_length s 32))]
  rw [OS2IP_I2OSP c 16 (by norm_num at hc ⊢; omega)]
  rw [OS2IP_I2OSP s 32 (lt_trans hsq (by decide))]

theorem proof2hash_layout (Γ : Point) (rest : Bytes) :
    ECVRF_proof2hash (ECP2OS Γ ++ rest) = encodePoint Γ := by
  rw [ECP2OS_eq]
  simp only [ECVRF_proof2hash, List.cons_append, List.drop_succ_cons,
    List.drop_zero]
  rw [List.take_append_of_le_length (le_of_eq (encodePoint_length Γ).symm)]
  exact List.take_of_length_le (le_of_eq (encodePoint_length Γ))

/-- Claim C1: for every key pair (pk, sk) produced by the standard Ed25519
key schedule (pk the encoded base-point multiple of the expanded secret
scalar of sk) and every message, if `ECVRF_prove` returns a proof π
without error then `ECVRF_verify` accepts π for that message. -/
theorem C1_vrf_correctness (sha512 sha256 : Bytes → Bytes)
    (hsha : ∀ bs, BytesOK (sha256 bs)) (pk sk m kseed pi : Bytes)
    (hpk : pk = encodePoint (ptMul (expandSecret sha512 sk) ptG))
    (hprove : ECVRF_prove sha512 sha256 pk sk m kseed = some pi) :
    ECVRF_verify sha256 pk pi m = some true := by
  obtain ⟨h, hh, hpieq⟩ := ECVRF_prove_some _ _ _ _ _ _ _ hprove
  have hclt : proveC sha512 sha256 pk sk kseed h < 2 ^ 128 :=
    hash_points_lt sha256 hsha _
  have hslt : proveS sha512 sha256 pk sk kseed h < qn := s_toNat_lt _
  have hdecode : ECVRF_decode_proof pi
      = some (ptMul (expandSecret sha512 sk) h,
          proveC sha512 sha256 pk sk kseed h,
          proveS sha512 sha256 pk sk kseed h) := by
    rw [hpieq]
    exact ECVRF_decode_layout _ _ _ hclt hslt
  have hpk31 : pk.getD 31 0 / 128 = 0 := by
    rw [hpk]
    have := encodePoint_getD31_lt (ptMul (expandSecret sha512 sk) ptG)
    exact Nat.div_eq_of_lt (by omega)
  have hPdec : OS2ECP pk (pk.getD 31 0 / 128)
      = some (ptMul (expandSecret sha512 sk) ptG) := by
    rw [hpk31, hpk]
    exact OS2ECP_encodePoint _
  have hscast : ((proveS sha512 sha256 pk sk kseed h : Nat) : Point)
      = (expandSecret sha512 kseed : Point)
        - (proveC sha512 sha256 pk sk kseed h : Point)
        * (expandSecret sha512 sk : Point) := by
    unfold proveS
    rw [cast_emod_toNat]
    push_cast
    ring
  have hu : ptAdd (ptMul (proveC sha512 sha256 pk sk kseed h)
        (ptMul (expandSecret sha512 sk) ptG))
        (ptMul (proveS sha512 sha256 pk sk kseed h) ptG)
      = ptMul (expandSecret sha512 kseed) ptG :=
    ptMul_decomp _ _ _ _ hscast ptG
  have hv : ptAdd (ptMul (proveC sha512 sha256 pk sk kseed h)
        (ptMul (expandSecret sha512 sk) h))
        (ptMul (proveS sha512 sha256 pk sk kseed h) h)
      = ptMul (expandSecret sha512 kseed) h :=
    ptMul_decomp _ _ _ _ hscast h
  unfold ECVRF_verify
  rw [hdecode, hPdec, hh]
  simp only [hu, hv]
  have hkp : ECP2OSProj (ptMul (expandSecret sha512 kseed) ptG)
      = S2OS (edPublicKey sha512 kseed) := rfl
  rw [hkp]
  simp only [proveC, ECVRF_hash_points, ECP2OS, Option.some.injEq,
    decide_eq_true_eq]

/-- Constant stand-in hash with 64 zero bytes, used to instantiate the
abstract SHA-512 parameter in concrete checks. -/
def shaZ512 : Bytes → Bytes := fun _ => List.replicate 64 0

/-- Constant stand-in hash with 32 zero bytes, used to instantiate the
abstract SHA-256 parameter in concrete checks. -/
def shaZ256 : Bytes → Bytes := fun _ => List.replicate 32 0

/-- Stand-in 64-byte hash that embeds its input, so that different
seeds expand to different scalars in concrete checks. -/
def shaID512 : Bytes → Bytes := fun bs => (bs ++ List.replicate 64 0).take 64

/-- Concrete public key for the VRF witnesses. -/
def pkW : Bytes := encodePoint (ptMul (expandSecret shaZ512 []) ptG)

/-- Concrete proof produced by `ECVRF_prove` at the witness inputs. -/
def piW : Bytes := (ECVRF_prove shaZ512 shaZ256 pkW [] [] []).getD []

theorem C1_vrf_correctness_witness :
    ECVRF_prove shaZ512 shaZ256 pkW [] [] [] = some piW ∧
    ECVRF_verify shaZ256 pkW piW [] = some true := by
  have h1 : ECVRF_prove shaZ512 shaZ256 pkW [] [] [] = some piW := by decide
  refine ⟨h1, C1_vrf_correctness shaZ512 shaZ256 ?_ pkW [] [] [] piW rfl h1⟩
  intro bs b hb
  have := List.eq_of_mem_replicate hb
  omega

/-- Claim C2: for a fixed key pair and message, the index
`ECVRF_proof2hash (ECVRF_prove ..)` — bytes π[1..33], the 32-byte
encoding of Γ = h^x — is the same across two prove invocations with
different ephemeral randomness. -/
theorem C2_proof2hash_deterministic (sha512 sha256 : Bytes → Bytes)
    (pk sk m ks1 ks2 pi1 pi2 : Bytes)
    (h1 : ECVRF_prove sha512 sha256 pk sk m ks1 = some pi1)
    (h2 : ECVRF_prove sha512 sha256 pk sk m ks2 = some pi2) :
    ECVRF_proof2hash pi1 = ECVRF_proof2hash pi2 := by
  obtain ⟨h, hh, hp1⟩ := ECVRF_prove_some _ _ _ _ _ _ _ h1
  obtain ⟨h', hh', hp2⟩ := ECVRF_prove_some _ _ _ _ _ _ _ h2
  rw [hh] at hh'
  injection hh' with hhe
  subst hhe
  rw [hp1, hp2, proof2hash_layout, proof2hash_layout]

/-- Concrete proof from ephemeral seed `[]` for the C2 witness. -/
def piA : Bytes := (ECVRF_prove shaID512 shaZ256 [] [] [] []).getD []

/-- Concrete proof from ephemeral seed `[8]` for the C2 witness. -/
def piB : Bytes := (ECVRF_prove shaID512 shaZ256 [] [] [] [8]).getD []

theorem C2_proof2hash_deterministic_witness :
    ECVRF_prove shaID512 shaZ256 [] [] [] [] = some piA ∧
    ECVRF_prove shaID512 shaZ256 [] [] [] [8] = some piB ∧
    piA ≠ piB ∧
    ECVRF_proof2hash piA = ECVRF_proof2hash piB := by
  have h1 : ECVRF_prove shaID512 shaZ256 [] [] [] [] = some piA := by decide
  have h2 : ECVRF_prove shaID512 shaZ256 [] [] [] [8] = some piB := by decide
  exact ⟨h1, h2, by decide,
    C2_proof2hash_deterministic shaID512 shaZ256 [] [] [] [] [8] piA piB h1 h2⟩

/-- Claim C7: a successful `ECVRF_prove` returns exactly 81 bytes, laid
out as the 33-byte sign-octet encoding of Γ = h^x followed by the
16-byte big-endian I2OSP(c, 16) and the 32-byte big-endian I2OSP(s, 32). -/
theorem C7_proof_length_layout (sha512 sha256 : Bytes → Bytes)
    (pk sk m kseed pi : Bytes)
    (_hpk : pk = encodePoint (ptMul (expandSecret sha512 sk) ptG))
    (hprove : ECVRF_prove sha512 sha256 pk sk m kseed = some pi) :
    pi.length = 81 ∧
    ∃ h, ECVRF_hash_to_curve sha256 m pk = some h ∧
      pi = ECP2OS (ptMul (expandSecret sha512 sk) h)
        ++ (I2OSP (proveC sha512 sha256 pk sk kseed h) 16
        ++ I2OSP (proveS sha512 sha256 pk sk kseed h) 32) ∧
      (ECP2OS (ptMul (expandSecret sha512 sk) h)).length = 33 ∧
      (I2OSP (proveC sha512 sha256 pk sk kseed h) 16).length = 16 ∧
      (I2OSP (proveS sha512 sha256 pk sk kseed h) 32).length = 32 := by
  obtain ⟨h, hh, hpieq⟩ := ECVRF_prove_some _ _ _ _ _ _ _ hprove
  refine ⟨?_, h, hh, hpieq, ECP2OS_length _, I2OSP_length _ _, I2OSP_length _ _⟩
  rw [hpieq]
  simp [ECP2OS_length, I2OSP_length]

/-- Concrete proof from ephemeral seed `[5]` for the C7 witness. -/
def piC : Bytes := (ECVRF_prove shaZ512 shaZ256 pkW [] [] [5]).getD []

theorem C7_proof_length_layout_witness :
    ECVRF_prove shaZ512 shaZ256 pkW [] [] [5] = some piC ∧ piC.length = 81 := by
  have h1 : ECVRF_prove shaZ512 shaZ256 pkW [] [] [5] = some piC := by decide
  exact ⟨h1,
    (C7_proof_length_layout shaZ512 shaZ256 pkW [] [] [5] piC rfl h1).1⟩

theorem hashToCurveLoop_eq_some (sha256 : Bytes → Bytes) (m pk : Bytes)
    (fuel start : Nat) (P : Point) :
    hashToCurveLoop sha256 m pk fuel start = some P ↔
      ∃ i, start ≤ i ∧ i < start + fuel ∧
        hashToCurveTry sha256 m pk i = some P ∧
        ∀ j, start ≤ j → j < i → hashToCurveTry sha256 m pk j = none := by
  induction fuel generalizing start with
  | zero =>
    constructor
    · intro hcontra
      simp [hashToCurveLoop] at hcontra
    · rintro ⟨i, h1, h2, _⟩
      exact absurd h2 (by omega)
  | succ fuel ih =>
    simp only [hashToCurveLoop]
    cases htry : hashToCurveTry sha256 m pk start with
    | some Q =>
      constructor
      · intro hQ
        simp only [Option.some.injEq] at hQ
        exact ⟨start, le_rfl, by omega, by rw [htry, hQ],
          fun j hj1 hj2 => absurd hj2 (by omega)⟩
      · rintro ⟨i, h1, h2, h3, h4⟩
        rcases eq_or_lt_of_le h1 with he | hlt
        · rw [← he] at h3
          rw [htry] at h3
          exact h3
        · have := h4 start le_rfl hlt
          rw [htry] at this
          cases this
    | none =>
      rw [ih (start + 1)]
      constructor
      · rintro ⟨i, h1, h2, h3, h4⟩
        refine ⟨i, by omega, by omega, h3, fun j hj1 hj2 => ?_⟩
        rcases eq_or_lt_of_le hj1 with he | hlt
        · rw [← he]
          exact htry
        · exact h4 j hlt hj2
      · rintro ⟨i, h1, h2, h3, h4⟩
        have hne : start ≠ i := by
          intro he
          rw [← he] at h3
          rw [htry] at h3
          cases h3
        exact ⟨i, by omega, by omega, h3, fun j hj1 hj2 => h4 j (by omega) hj2⟩

theorem hashToCurveLoop_eq_none (sha256 : Bytes → Bytes) (m pk : Bytes)
    (fuel start : Nat) :
    hashToCurveLoop sha256 m pk fuel start = none ↔
      ∀ i, start ≤ i → i < start + fuel →
        hashToCurveTry sha256 m pk i = none := by
  induction fuel generalizing start with
  | zero =>
    simp only [hashToCurveLoop, true_iff]
    intro i h1 h2
    exact absurd h2 (by omega)
  | succ fuel ih =>
    simp only [hashToCurveLoop]
    cases htry : hashToCurveTry sha256 m pk start with
    | some Q =>
      constructor
      · intro hcontra
        cases hcontra
      · intro hall
        have := hall start le_rfl (by omega)
        rw [htry] at this
        cases this
    | none =>
      rw [ih (start + 1)]
      constructor
      · intro hall i h1 h2
        rcases eq_or_lt_of_le h1 with he | hlt
        · rw [← he]
          exact htry
        · exact hall i hlt (by omega)
      · intro hall i h1 h2
        exact hall i (by omega) (by omega)

/-- Claim C6: `ECVRF_hash_to_curve` iterates a 32-bit big-endian counter
i = 0, 1, … bounded by 10000; each step hashes m ‖ pk ‖ I2OSP(i, 4) with
SHA-256 and tries to decode the digest with sign 0 and then sign 1
(`hashToCurveTry`); the result is the first point that decodes, and the
operation fails fatally when no counter value within the limit yields a
point. -/
theorem C6_hash_to_curve_characterization (sha256 : Bytes → Bytes)
    (m pk : Bytes) :
    limit = 10000 ∧
    (∀ P, ECVRF_hash_to_curve sha256 m pk = some P ↔
      ∃ i, i < limit ∧ hashToCurveTry sha256 m pk i = some P ∧
        ∀ j, j < i → hashToCurveTry sha256 m pk j = none) ∧
    (ECVRF_hash_to_curve sha256 m pk = none ↔
      ∀ i, i < limit → hashToCurveTry sha256 m pk i = none) := by
  refine ⟨rfl, fun P => ?_, ?_⟩
  · rw [ECVRF_hash_to_curve, hashToCurveLoop_eq_some]
    constructor
    · rintro ⟨i, _, h2, h3, h4⟩
      exact ⟨i, by omega, h3, fun j hj => h4 j (by omega) hj⟩
    · rintro ⟨i, h2, h3, h4⟩
      exact ⟨i, by omega, by omega, h3, fun j _ hj => h4 j hj⟩
  · rw [ECVRF_hash_to_curve, hashToCurveLoop_eq_none]
    constructor
    · intro hall i hi
      exact hall i (by omega) (by omega)
    · intro hall i _ hi
      exact hall i (by omega)

/-- Raft hard state (etcd raftpb.HardState: current term, vote, commit). -/
structure HardState where
  term : Nat
  vote : Nat
  commit : Nat
deriving DecidableEq

/-- Raft log entry (etcd raftpb.Entry: Type, Term, Index, Data). -/
structure REntry where
  typ : Nat
  term : Nat
  index : Nat
  data : Bytes
deriving DecidableEq

/-- Fixed-width big-endian byte decomposition of a natural number:
`natBEfix w n` encodes `n % 2^(8*w)` on `w` bytes, most significant
first (`binary.BigEndian.PutUint64` shape). -/
def natBEfix : Nat → Nat → Bytes
  | 0, _ => []
  | w + 1, n => natBEfix w (n / 256) ++ [n % 256]

/-- Big-endian 8-byte encoding of a 64-bit number (u64_be). -/
def u64be (n : Nat) : Bytes := natBEfix 8 n

/-- Modelled from the spec (§4.5, §6: values are "the consensus engine's
own serialised forms"; the etcd raftpb encoding is outside src/): the
serialised HardState, as fixed-width big-endian fields. -/
def marshalHardState (st : HardState) : Bytes :=
  u64be st.term ++ u64be st.vote ++ u64be st.commit

/-- Modelled from the spec: the serialised log entry (raftpb
Entry.Marshal, outside src/): fixed-width big-endian Type, Term and
Index fields and length-prefixed Data. -/
def marshalEntry (e : REntry) : Bytes :=
  u64be e.typ ++ u64be e.term ++ u64be e.index ++ u64be e.data.length ++ e.data

/-- Serialised size of an entry (raftpb Entry.Size(), recomputed from
the decoded value as the Go Entries loop does). -/
def entSize (e : REntry) : Nat := (marshalEntry e).length

/-- Modelled from the spec: parse of a serialised log entry (raftpb
Entry.Unmarshal, outside src/), partial inverse of `marshalEntry`. -/
def unmarshalEntry (b : Bytes) : Option REntry :=
  if b.length < 32 then none
  else
    let dlen := OS2IP ((b.drop 24).take 8)
    if (b.drop 32).length = dlen then
      some ⟨OS2IP (b.take 8), OS2IP ((b.drop 8).take 8),
        OS2IP ((b.drop 16).take 8), b.drop 32⟩
    else none

theorem natBEfix_length (w n : Nat) : (natBEfix w n).length = w := by
  induction w generalizing n with
  | zero => rfl
  | succ w ih => simp [natBEfix, ih]

theorem entSize_ge (e : REntry) : 32 + e.data.length ≤ entSize e := by
  simp only [entSize, marshalEntry, u64be, List.length_append, natBEfix_length]
  omega

/-- Model of the raft storage state: the values under the three key
families `HS`, `CS` and `E‖u64_be(i)` of raftlog.go openRaftStorage.
Since the 8-byte big-endian index encoding is order-preserving and the
three families are disjoint byte ranges, the entry family is kept as an
index-sorted association list mirroring the ordered key-value store. -/
structure RaftStore where
  hsVal : Option Bytes
  csVal : Option Bytes
  entries : List (Nat × Bytes)
deriving DecidableEq

/-- Sortedness invariant of the ordered key-value store: entry records
in strictly increasing index order. -/
def PairSorted (l : List (Nat × Bytes)) : Prop :=
  l.Pairwise (fun a b => a.1 < b.1)

instance : DecidablePred PairSorted := fun l =>
  inferInstanceAs (Decidable (l.Pairwise _))

/-- Point lookup of the stored bytes at entry index i (Get on key
`E‖u64_be(i)`). -/
def entGet (l : List (Nat × Bytes)) (i : Nat) : Option Bytes :=
  match l with
  | [] => none
  | (j, v) :: t => if j = i then some v else entGet t i

/-- Ordered insertion or replacement at entry index i (batch Put on key
`E‖u64_be(i)`). -/
def entPut (l : List (Nat × Bytes)) (i : Nat) (v : Bytes) :
    List (Nat × Bytes) :=
  match l with
  | [] => [(i, v)]
  | (j, w) :: t =>
    if j < i then (j, w) :: entPut t i v
    else if j = i then (i, v) :: t
    else (i, v) :: (j, w) :: t

/-- Removal of entry index i (batch Delete on key `E‖u64_be(i)`). -/
def entDel (l : List (Nat × Bytes)) (i : Nat) : List (Nat × Bytes) :=
  match l with
  | [] => []
  | (j, w) :: t => if j = i then t else (j, w) :: entDel t i

/-- One buffered operation of a kv write batch as used by
raftStorage.save (the CS key is never written there). -/
inductive BatchOp
  | putHS (v : Bytes)
  | putEntry (i : Nat) (v : Bytes)
  | delEntry (i : Nat)
deriving DecidableEq

/-- Application of one batch operation to the store. -/
def applyOp (s : RaftStore) : BatchOp → RaftStore
  | .putHS v => { s with hsVal := some v }
  | .putEntry i v => { s with entries := entPut s.entries i v }
  | .delEntry i => { s with entries := entDel s.entries i }

/-- Atomic application of a whole write batch (kv db.Write). -/
def applyBatch (s : RaftStore) (ops : List BatchOp) : RaftStore :=
  ops.foldl applyOp s

/-- Largest stored entry index, or 0 when no entry is stored
(raftlog.go raftStorage.LastIndex: the index portion of the last key
under the entry prefix). -/
def lastIndex (s : RaftStore) : Nat :=
  match s.entries.getLast? with
  | none => 0
  | some p => p.1

/-- Index of the first entry of a batch handed to save
(`entries[0].Index`), 0 for an empty batch. -/
def headIndex : List REntry → Nat
  | [] => 0
  | e :: _ => e.index

/-- raftlog.go raftStorage.save: one write batch that stores the
marshalled HardState under `HS`; when entries are present it reads
LastIndex, fails fatally (`none`) when `entries[0].Index > lastIndex+1`,
deletes the stored entries from `entries[0].Index` through lastIndex and
puts every new entry under its key; the batch is applied atomically at
the end (db.Write).  Marshalling cannot fail in the model, so the Go
early error returns (which leave the store untouched because the batch
has not been written) do not arise. -/
def raftSave (s : RaftStore) (st : HardState) (es : List REntry) :
    Option RaftStore :=
  let ops := [BatchOp.putHS (marshalHardState st)]
  match es with
  | [] => some (applyBatch s ops)
  | e0 :: _ =>
    let li := lastIndex s
    if e0.index > li + 1 then none
    else
      let dels := (List.range' e0.index (li + 1 - e0.index)).map
        BatchOp.delEntry
      let puts := es.map (fun e => BatchOp.putEntry e.index (marshalEntry e))
      some (applyBatch s (ops ++ dels ++ puts))

/-- The stored values at indices in [lo, hi) in index order (the
iterator over kv.Range from getEntryKey lo to getEntryKey hi in
raftStorage.Entries). -/
def entRange (s : RaftStore) (lo hi : Nat) : List Bytes :=
  (s.entries.filter (fun p => decide (lo ≤ p.1 ∧ p.1 < hi))).map Prod.snd

/-- The iterator loop of raftlog.go raftStorage.Entries: unmarshal each
value, accumulate the decoded sizes, break before appending when the
size already exceeds maxSize and at least one entry is kept, break after
appending when the size reaches maxSize; `none` models an unmarshal
error return. -/
def entriesLoop (maxSize : Nat) :
    List Bytes → Nat → List REntry → Option (List REntry)
  | [], _, acc => some acc.reverse
  | v :: vs, sizeSoFar, acc =>
    match unmarshalEntry v with
    | none => none
    | some e =>
      let sz := sizeSoFar + entSize e
      if sz > maxSize ∧ acc ≠ [] then some acc.reverse
      else if sz ≥ maxSize then some ((e :: acc).reverse)
      else entriesLoop maxSize vs sz (e :: acc)

/-- raftlog.go raftStorage.Entries(lo, hi, maxSize). -/
def raftEntries (s : RaftStore) (lo hi maxSize : Nat) :
    Option (List REntry) :=
  entriesLoop maxSize (entRange s lo hi) 0 []

/-- raftlog.go raftStorage.IsInitialized: whether the HS key is
present. -/
def isInitialized (s : RaftStore) : Bool := s.hsVal.isSome

/-- raftlog.go raftStorage.FirstIndex: always 1. -/
def firstIndex (_s : RaftStore) : Nat := 1

theorem entGet_entPut_self (l : List (Nat × Bytes)) (i : Nat) (v : Bytes) :
    entGet (entPut l i v) i = some v := by
  induction l with
  | nil => simp [entPut, entGet]
  | cons p t ih =>
    obtain ⟨j, w⟩ := p
    by_cases h1 : j < i
    · simp only [entPut]
      rw [if_pos h1]
      simp only [entGet]
      rw [if_neg (by omega)]
      exact ih
    · by_cases h2 : j = i
      · simp only [entPut]
        rw [if_neg h1, if_pos h2]
        simp [entGet]
      · simp only [entPut]
        rw [if_neg h1, if_neg h2]
        simp [entGet]

theorem entGet_entPut_ne (l : List (Nat × Bytes)) (i : Nat) (v : Bytes)
    (j : Nat) (hne : i ≠ j) : entGet (entPut l i v) j = entGet l j := by
  induction l with
  | nil =>
    simp only [entPut, entGet]
    rw [if_neg hne]
  | cons p t ih =>
    obtain ⟨k, w⟩ := p
    by_cases h1 : k < i
    · simp only [entPut]
      rw [if_pos h1]
      simp only [entGet]
      by_cases h3 : k = j
      · rw [if_pos h3, if_pos h3]
      · rw [if_neg h3, if_neg h3]
        exact ih
    · by_cases h2 : k = i
      · simp only [entPut]
        rw [if_neg h1, if_pos h2]
        simp only [entGet]
        rw [if_neg hne, if_neg (show k ≠ j by rw [h2]; exact hne)]
      · simp only [entPut]
        rw [if_neg h1, if_neg h2]
        simp only [entGet]
        rw [if_neg hne]

theorem mem_entPut (l : List (Nat × Bytes)) (i : Nat) (v : Bytes)
    (q : Nat × Bytes) (hq : q ∈ entPut l i v) : q = (i, v) ∨ q ∈ l := by
  induction l with
  | nil =>
    simp only [entPut] at hq
    left
    simpa using hq
  | cons p t ih =>
    obtain ⟨k, w⟩ := p
    simp only [entPut] at hq
    split at hq
    · rcases List.mem_cons.1 hq with he | he
      · right
        rw [he]
        exact List.mem_cons_self _ _
      · rcases ih he with h | h
        · left; exact h
        · right; exact List.mem_cons_of_mem _ h
    · split at hq
      · rcases List.mem_cons.1 hq with he | he
        · left; exact he
        · right; exact List.mem_cons_of_mem _ he
      · rcases List.mem_cons.1 hq with he | he
        · left; exact he
        · right; exact he

theorem mem_entDel (l : List (Nat × Bytes)) (i : Nat) (q : Nat × Bytes)
    (hq : q ∈ entDel l i) : q ∈ l := by
  induction l with
  | nil => simp [entDel] at hq
  | cons p t ih =>
    obtain ⟨k, w⟩ := p
    simp only [entDel] at hq
    split at hq
    · exact List.mem_cons_of_mem _ hq
    · rcases List.mem_cons.1 hq with he | he
      · rw [he]; exact List.mem_cons_self _ _
      · exact List.mem_cons_of_mem _ (ih he)

theorem entGet_entDel_ne (l : List (Nat × Bytes)) (i j : Nat) (hne : i ≠ j) :
    entGet (entDel l i) j = entGet l j := by
  induction l with
  | nil => simp [entDel]
  | cons p t ih =>
    obtain ⟨k, w⟩ := p
    by_cases h1 : k = i
    · simp only [entDel]
      rw [if_pos h1]
      simp only [entGet]
      rw [if_neg (show k ≠ j by rw [h1]; exact hne)]
    · simp only [entDel]
      rw [if_neg h1]
      simp only [entGet]
      by_cases h3 : k = j
      · rw [if_pos h3, if_pos h3]
      · rw [if_neg h3, if_neg h3]
        exact ih

theorem entGet_eq_none_of_forall_ne (l : List (Nat × Bytes)) (i : Nat)
    (h : ∀ p ∈ l, p.1 ≠ i) : entGet l i = none := by
  induction l with
  | nil => rfl
  | cons p t ih =>
    obtain ⟨k, w⟩ := p
    have hk : k ≠ i := h (k, w) (List.mem_cons_self _ _)
    simp only [entGet]
    rw [if_neg hk]
    exact ih (fun q hq => h q (List.mem_cons_of_mem _ hq))

theorem entGet_entDel_self (l : List (Nat × Bytes)) (i : Nat)
    (hsorted : PairSorted l) : entGet (entDel l i) i = none := by
  induction l with
  | nil => rfl
  | cons p t ih =>
    obtain ⟨k, w⟩ := p
    rw [PairSorted, List.pairwise_cons] at hsorted
    by_cases h1 : k = i
    · simp only [entDel]
      rw [if_pos h1]
      exact entGet_eq_none_of_forall_ne t i
        (fun q hq => by have := hsorted.1 q hq; omega)
    · simp only [entDel]
      rw [if_neg h1]
      simp only [entGet]
      rw [if_neg h1]
      exact ih hsorted.2

theorem entPut_sorted (l : List (Nat × Bytes)) (i : Nat) (v : Bytes)
    (hsorted : PairSorted l) : PairSorted (entPut l i v) := by
  induction l with
  | nil => simp [entPut, PairSorted]
  | cons p t ih =>
    obtain ⟨k, w⟩ := p
    rw [PairSorted, List.pairwise_cons] at hsorted
    by_cases h1 : k < i
    · simp only [entPut]
      rw [if_pos h1]
      rw [PairSorted, List.pairwise_cons]
      refine ⟨?_, ih hsorted.2⟩
      intro q hq
      rcases mem_entPut t i v q hq with he | he
      · rw [he]; exact h1
      · exact hsorted.1 q he
    · by_cases h2 : k = i
      · simp only [entPut]
        rw [if_neg h1, if_pos h2]
        rw [PairSorted, List.pairwise_cons]
        refine ⟨?_, hsorted.2⟩
        intro q hq
        have := hsorted.1 q hq
        omega
      · simp only [entPut]
        rw [if_neg h1, if_neg h2]
        rw [PairSorted, List.pairwise_cons]
        refine ⟨?_, List.pairwise_cons.2 ⟨hsorted.1, hsorted.2⟩⟩
        intro q hq
        rcases List.mem_cons.1 hq with he | he
        · rw [he]; simp; omega
        · have := hsorted.1 q he
          omega

theorem entDel_sorted (l : List (Nat × Bytes)) (i : Nat)
    (hsorted : PairSorted l) : PairSorted (entDel l i) := by
  induction l with
  | nil => simp [entDel, PairSorted]
  | cons p t ih =>
    obtain ⟨k, w⟩ := p
    rw [PairSorted, List.pairwise_cons] at hsorted
    by_cases h1 : k = i
    · simp only [entDel]
      rw [if_pos h1]
      exact hsorted.2
    · simp only [entDel]
      rw [if_neg h1]
      rw [PairSorted, List.pairwise_cons]
      exact ⟨fun q hq => hsorted.1 q (mem_entDel t i q hq), ih hsorted.2⟩

theorem sorted_le_getLast (l : List (Nat × Bytes)) (hsorted : PairSorted l)
    (p : Nat × Bytes) (hp : p ∈ l) (a : Nat × Bytes)
    (ha : l.getLast? = some a) : p.1 ≤ a.1 := by
  induction l with
  | nil => simp at hp
  | cons q t ih =>
    rw [PairSorted, List.pairwise_cons] at hsorted
    cases t with
    | nil =>
      simp only [List.getLast?_singleton, Option.some.injEq] at ha
      rcases List.mem_cons.1 hp with he | he
      · rw [he, ha]
      · simp at he
    | cons r u =>
      have hgl : (q :: r :: u).getLast? = (r :: u).getLast? := rfl
      rw [hgl] at ha
      rcases List.mem_cons.1 hp with he | he
      · have hmem : a ∈ r :: u := List.mem_of_mem_getLast? ha
        have h2 := hsorted.1 a hmem
        rw [he]
        omega
      · exact ih hsorted.2 he ha

theorem entGet_gt_lastIndex (s : RaftStore) (hsorted : PairSorted s.entries)
    (j : Nat) (hj : lastIndex s < j) : entGet s.entries j = none := by
  apply entGet_eq_none_of_forall_ne
  intro p hp
  cases hl : s.entries.getLast? with
  | none =>
    rw [List.getLast?_eq_none_iff] at hl
    rw [hl] at hp
    simp at hp
  | some a =>
    have hle := sorted_le_getLast s.entries hsorted p hp a hl
    unfold lastIndex at hj
    rw [hl] at hj
    have hj2 : a.1 < j := hj
    omega

/-- Last entry of a batch whose index is j — the put that wins at key
`E‖u64_be(j)` when the batch is applied in order. -/
def lastWrite (es : List REntry) (j : Nat) : Option REntry :=
  match es with
  | [] => none
  | e :: t =>
    match lastWrite t j with
    | some e2 => some e2
    | none => if e.index = j then some e else none

theorem applyBatch_csVal (ops : List BatchOp) (s : RaftStore) :
    (applyBatch s ops).csVal = s.csVal := by
  induction ops generalizing s with
  | nil => rfl
  | cons op t ih =>
    simp only [applyBatch, List.foldl_cons]
    have := ih (applyOp s op)
    simp only [applyBatch] at this
    rw [this]
    cases op <;> rfl

theorem applyBatch_delEntry_hsVal (l : List Nat) (s : RaftStore) :
    (applyBatch s (l.map BatchOp.delEntry)).hsVal = s.hsVal := by
  induction l generalizing s with
  | nil => rfl
  | cons a t ih =>
    simp only [List.map_cons, applyBatch, List.foldl_cons]
    have := ih (applyOp s (BatchOp.delEntry a))
    simp only [applyBatch] at this
    rw [this]
    rfl

theorem applyBatch_putEntry_hsVal (es : List REntry) (s : RaftStore) :
    (applyBatch s (es.map (fun e =>
      BatchOp.putEntry e.index (marshalEntry e)))).hsVal = s.hsVal := by
  induction es generalizing s with
  | nil => rfl
  | cons e t ih =>
    simp only [List.map_cons, applyBatch, List.foldl_cons]
    have := ih (applyOp s (BatchOp.putEntry e.index (marshalEntry e)))
    simp only [applyBatch] at this
    rw [this]
    rfl

theorem applyBatch_dels_entries (n a : Nat) (s : RaftStore)
    (hsorted : PairSorted s.entries) (j : Nat) :
    entGet (applyBatch s ((List.range' a n).map BatchOp.delEntry)).entries j
      = if a ≤ j ∧ j < a + n then none else entGet s.entries j := by
  induction n generalizing a s with
  | zero =>
    simp only [List.range', List.map_nil, applyBatch, List.foldl_nil]
    rw [if_neg (by omega)]
  | succ n ih =>
    rw [List.range'_succ]
    simp only [List.map_cons, applyBatch, List.foldl_cons]
    have hsorted2 : PairSorted (applyOp s (BatchOp.delEntry a)).entries :=
      entDel_sorted _ _ hsorted
    have hstep := ih (a + 1) (applyOp s (BatchOp.delEntry a)) hsorted2 
    simp only [applyBatch] at hstep
    rw [hstep]
    by_cases hj : j = a
    · rw [hj]
      rw [if_neg (by omega), if_pos ⟨le_rfl, by omega⟩]
      exact entGet_entDel_self _ _ hsorted
    · have : entGet (applyOp s (BatchOp.delEntry a)).entries j
          = entGet s.entries j :=
        entGet_entDel_ne _ _ _ (fun he => hj he.symm)
      rw [this]
      by_cases h2 : a + 1 ≤ j ∧ j < a + 1 + n
      · rw [if_pos h2, if_pos (by omega)]
      · rw [if_neg h2, if_neg (by omega)]

theorem applyBatch_dels_sorted (n a : Nat) (s : RaftStore)
    (hsorted : PairSorted s.entries) :
    PairSorted (applyBatch s ((List.range' a n).map BatchOp.delEntry)).entries := by
  induction n generalizing a s with
  | zero => exact hsorted
  | succ n ih =>
    rw [List.range'_succ]
    simp only [List.map_cons, applyBatch, List.foldl_cons]
    have hsorted2 : PairSorted (applyOp s (BatchOp.delEntry a)).entries :=
      entDel_sorted _ _ hsorted
    have := ih (a + 1) (applyOp s (BatchOp.delEntry a)) hsorted2
    simpa [applyBatch] using this

theorem applyBatch_puts_entries (es : List REntry) (s : RaftStore) (j : Nat) :
    entGet (applyBatch s (es.map (fun e =>
        BatchOp.putEntry e.index (marshalEntry e)))).entries j
      = match lastWrite es j with
        | some e => some (marshalEntry e)
        | none => entGet s.entries j := by
  induction es generalizing s with
  | nil => rfl
  | cons e t ih =>
    simp only [List.map_cons, applyBatch, List.foldl_cons]
    have hstep := ih (applyOp s (BatchOp.putEntry e.index (marshalEntry e)))
    simp only [applyBatch] at hstep
    rw [hstep]
    simp only [lastWrite]
    cases hl : lastWrite t j with
    | some e2 => rfl
    | none =>
      simp only [applyOp]
      by_cases hj : e.index = j
      · rw [if_pos hj, ← hj, entGet_entPut_self]
      · rw [if_neg hj, entGet_entPut_ne _ _ _ _ hj]

theorem raftSave_eq_none_iff (s : RaftStore) (st : HardState)
    (es : List REntry) :
    raftSave s st es = none ↔ es ≠ [] ∧ headIndex es > lastIndex s + 1 := by
  cases es with
  | nil => simp [raftSave]
  | cons e0 t =>
    simp only [raftSave, headIndex]
    by_cases hg : e0.index > lastIndex s + 1
    · rw [if_pos hg]
      simp [hg]
    · rw [if_neg hg]
      simp [hg]

theorem raftSave_spec (s : RaftStore) (hsorted : PairSorted s.entries)
    (st : HardState) (es : List REntry) (s2 : RaftStore)
    (hsave : raftSave s st es = some s2) :
    s2.hsVal = some (marshalHardState st) ∧
    s2.csVal = s.csVal ∧
    ∀ j, entGet s2.entries j =
      match lastWrite es j with
      | some e => some (marshalEntry e)
      | none =>
        if es ≠ [] ∧ headIndex es ≤ j then none
        else entGet s.entries j := by
  cases es with
  | nil =>
    simp only [raftSave, applyBatch, List.foldl_cons, List.foldl_nil,
      Option.some.injEq] at hsave
    rw [← hsave]
    refine ⟨rfl, rfl, fun j => ?_⟩
    simp only [lastWrite]
    rw [if_neg (by simp)]
    rfl
  | cons e0 t =>
    simp only [raftSave] at hsave
    by_cases hg : e0.index > lastIndex s + 1
    · rw [if_pos hg] at hsave
      cases hsave
    · rw [if_neg hg] at hsave
      simp only [Option.some.injEq] at hsave
      have hsplit : applyBatch s
          ([BatchOp.putHS (marshalHardState st)]
            ++ (List.range' e0.index (lastIndex s + 1 - e0.index)).map
                BatchOp.delEntry
            ++ (e0 :: t).map (fun e =>
                BatchOp.putEntry e.index (marshalEntry e)))
          = applyBatch
              (applyBatch
                (applyBatch s [BatchOp.putHS (marshalHardState st)])
                ((List.range' e0.index (lastIndex s + 1 - e0.index)).map
                  BatchOp.delEntry))
              ((e0 :: t).map (fun e =>
                BatchOp.putEntry e.index (marshalEntry e))) := by
        simp [applyBatch, List.foldl_append]
      rw [hsplit] at hsave
      set s0 := applyBatch s [BatchOp.putHS (marshalHardState st)] with hs0
      have hs0entries : s0.entries = s.entries := rfl
      have hs0hs : s0.hsVal = some (marshalHardState st) := rfl
      have hs0cs : s0.csVal = s.csVal := rfl
      have hs0sorted : PairSorted s0.entries := by
        rw [hs0entries]; exact hsorted
      set s1 := applyBatch s0
        ((List.range' e0.index (lastIndex s + 1 - e0.index)).map
          BatchOp.delEntry) with hs1
      refine ⟨?_, ?_, ?_⟩
      · rw [← hsave, applyBatch_putEntry_hsVal, hs1,
          applyBatch_delEntry_hsVal, hs0hs]
      · rw [← hsave, applyBatch_csVal, hs1, applyBatch_csVal, hs0cs]
      · intro j
        rw [← hsave, applyBatch_puts_entries]
        cases hl : lastWrite (e0 :: t) j with
        | some e => rfl
        | none =>
          have hget1 : entGet s1.entries j
              = if e0.index ≤ j ∧ j < e0.index + (lastIndex s + 1 - e0.index)
                then none else entGet s.entries j := by
            rw [hs1]
            have := applyBatch_dels_entries (lastIndex s + 1 - e0.index)
              e0.index s0 hs0sorted j
            rw [hs0entries] at this
            exact this
          rw [hget1]
          have hne0 : (e0 :: t ≠ []) = True := by simp
          by_cases hj : e0.index ≤ j
          · by_cases hj2 : j ≤ lastIndex s
            · rw [if_pos ⟨hj, by omega⟩, if_pos (by simp [headIndex]; omega)]
            · rw [if_neg (by omega), if_pos (by simp [headIndex]; omega)]
              exact entGet_gt_lastIndex s hsorted j (by omega)
          · rw [if_neg (by omega), if_neg (by simp [headIndex]; omega)]

/-- Claim C3: raftStorage.save applies its writes as one atomic batch:
it writes the marshalled HardState under the HS key; with a non-empty
batch whose first index skips past LastIndex()+1 it fails fatally
(`none`, the Go panic); otherwise it deletes the stored entries from
entries[0].Index through LastIndex() and writes each new entry under its
key (later writes winning), leaving every other key — in particular CS —
as it was; the batch is applied only as a whole, so a fatal exit leaves
the store unchanged. -/
theorem C3_save_batch (s : RaftStore) (st : HardState) (es : List REntry)
    (hsorted : PairSorted s.entries) :
    (raftSave s st es = none ↔ es ≠ [] ∧ headIndex es > lastIndex s + 1) ∧
    (∀ s2, raftSave s st es = some s2 →
      s2.hsVal = some (marshalHardState st) ∧
      s2.csVal = s.csVal ∧
      ∀ j, entGet s2.entries j =
        match lastWrite es j with
        | some e => some (marshalEntry e)
        | none =>
          if es ≠ [] ∧ headIndex es ≤ j then none
          else entGet s.entries j) :=
  ⟨raftSave_eq_none_iff s st es,
   fun s2 hsave => raftSave_spec s hsorted st es s2 hsave⟩

/-- Concrete store for the C3 witness. -/
def s0C : RaftStore := ⟨some [1], some [2], [(1, [10]), (2, [20])]⟩

/-- Concrete hard state for the C3 witness. -/
def stC : HardState := ⟨1, 2, 3⟩

/-- Concrete entry batch for the C3 witness. -/
def esC : List REntry := [⟨0, 1, 2, [7]⟩, ⟨0, 1, 3, [8]⟩]

/-- Concrete save result for the C3 witness. -/
def s2C : RaftStore := (raftSave s0C stC esC).getD s0C

theorem C3_save_batch_witness :
    raftSave s0C stC esC = some s2C ∧
    s2C.hsVal = some (marshalHardState stC) ∧
    s2C.csVal = s0C.csVal := by
  have hsave : raftSave s0C stC esC = some s2C := by decide
  obtain ⟨h1, h2, _⟩ := (C3_save_batch s0C stC esC (by decide)).2 s2C hsave
  exact ⟨hsave, h1, h2⟩

theorem lastWrite_eq_none (es : List REntry) (j : Nat)
    (h : ∀ e ∈ es, e.index ≠ j) : lastWrite es j = none := by
  induction es with
  | nil => rfl
  | cons e t ih =>
    simp only [lastWrite]
    rw [ih (fun e2 he2 => h e2 (List.mem_cons_of_mem _ he2))]
    rw [if_neg (h e (List.mem_cons_self _ _))]

/-- Claim C10 (amended): provided every entry of the batch has index at
least entries[0].Index (as holds for the consecutive batches raft hands
to save), a successful raftStorage.save leaves the ConfState key and
every stored log entry with index strictly below entries[0].Index
unchanged, and with an empty batch it only writes the HardState key and
deletes nothing. -/
theorem C10_save_frame (s : RaftStore) (st : HardState) (es : List REntry)
    (s2 : RaftStore) (hsorted : PairSorted s.entries)
    (hmono : ∀ e ∈ es, headIndex es ≤ e.index)
    (hsave : raftSave s st es = some s2) :
    s2.csVal = s.csVal ∧
    (∀ j, j < headIndex es → entGet s2.entries j = entGet s.entries j) ∧
    (es = [] → s2 = { s with hsVal := some (marshalHardState st) }) := by
  obtain ⟨h1, h2, h3⟩ := raftSave_spec s hsorted st es s2 hsave
  refine ⟨h2, fun j hj => ?_, fun hnil => ?_⟩
  · rw [h3 j]
    rw [lastWrite_eq_none es j
      (fun e he => by have := hmono e he; omega)]
    rw [if_neg (by intro hc; omega)]
  · rw [hnil] at hsave
    simp only [raftSave, applyBatch, List.foldl_cons, List.foldl_nil,
      Option.some.injEq] at hsave
    rw [← hsave]
    rfl

/-- Concrete sorted store for the C10 witness. -/
def s0Y : RaftStore := ⟨none, some [3], [(1, [1]), (2, [2]), (3, [3])]⟩

/-- Concrete monotone entry batch for the C10 witness. -/
def esY : List REntry := [⟨0, 0, 2, [5]⟩, ⟨0, 0, 3, [6]⟩]

/-- Concrete save result for the C10 witness. -/
def s2Y : RaftStore := (raftSave s0Y ⟨1, 1, 1⟩ esY).getD s0Y

theorem C10_save_frame_witness :
    raftSave s0Y ⟨1, 1, 1⟩ esY = some s2Y ∧
    s2Y.csVal = s0Y.csVal ∧
    entGet s2Y.entries 1 = entGet s0Y.entries 1 := by
  have hsave : raftSave s0Y ⟨1, 1, 1⟩ esY = some s2Y := by decide
  obtain ⟨h1, h2, _⟩ := C10_save_frame s0Y ⟨1, 1, 1⟩ esY s2Y (by decide)
    (by decide) hsave
  exact ⟨hsave, h1, h2 1 (by decide)⟩

/-- Concrete store refuting claim C10 as stated: the second entry of the
batch rewrites an index strictly below entries[0].Index. -/
def s0X : RaftStore := ⟨none, some [7], [(1, [1]), (2, [2])]⟩

/-- Non-monotone entry batch for the C10 counterexample. -/
def esX : List REntry := [⟨0, 0, 2, []⟩, ⟨0, 0, 1, [9]⟩]

/-- Save result of the C10 counterexample inputs. -/
def s2X : RaftStore := (raftSave s0X ⟨0, 0, 0⟩ esX).getD s0X

theorem C10_frame_counterexample :
    raftSave s0X ⟨0, 0, 0⟩ esX = some s2X ∧
    headIndex esX = 2 ∧
    entGet s2X.entries 1 ≠ entGet s0X.entries 1 := by
  exact ⟨by decide, rfl, by decide⟩

/-- Accumulation rule of the spec sentence for Entries: keep taking
decoded entries while the running serialised size does not strictly
exceed maxSize. -/
def accumUntil (maxSize : Nat) : Nat → List REntry → List REntry
  | _, [] => []
  | acc, e :: es =>
    if acc + entSize e > maxSize then []
    else e :: accumUntil maxSize (acc + entSize e) es

/-- The list Entries must return by the claim: the first in-range entry
unconditionally, then further entries while the running size stays
within maxSize. -/
def entriesSpec (maxSize : Nat) : List REntry → List REntry
  | [] => []
  | e :: es => e :: accumUntil maxSize (entSize e) es

theorem accumUntil_ge (maxSize acc : Nat) (l : List REntry)
    (h : maxSize ≤ acc) : accumUntil maxSize acc l = [] := by
  cases l with
  | nil => rfl
  | cons e t =>
    simp only [accumUntil]
    rw [if_pos (by have := entSize_ge e; omega)]

theorem accumUntil_prefix (maxSize : Nat) (l : List REntry) :
    ∀ acc, accumUntil maxSize acc l <+: l := by
  induction l with
  | nil => intro acc; exact List.nil_prefix
  | cons e t ih =>
    intro acc
    simp only [accumUntil]
    by_cases h1 : acc + entSize e > maxSize
    · rw [if_pos h1]
      exact List.nil_prefix
    · rw [if_neg h1]
      obtain ⟨r, hr⟩ := ih (acc + entSize e)
      exact ⟨r, by rw [List.cons_append, hr]⟩

theorem entriesLoop_acc (maxSize : Nat) (vs : List Bytes)
    (hwf : ∀ v ∈ vs, (unmarshalEntry v).isSome) :
    ∀ (sizeSoFar : Nat) (acc : List REntry), acc ≠ [] →
    entriesLoop maxSize vs sizeSoFar acc
      = some (acc.reverse
          ++ accumUntil maxSize sizeSoFar (vs.filterMap unmarshalEntry)) := by
  induction vs with
  | nil =>
    intro sz acc hne
    simp [entriesLoop, accumUntil]
  | cons v vs ih =>
    intro sz acc hne
    obtain ⟨e, he⟩ := Option.isSome_iff_exists.1
      (hwf v (List.mem_cons_self _ _))
    have hfm : (v :: vs).filterMap unmarshalEntry
        = e :: vs.filterMap unmarshalEntry := by
      simp [List.filterMap_cons, he]
    simp only [entriesLoop, he, hfm, accumUntil]
    by_cases h1 : sz + entSize e > maxSize
    · rw [if_pos ⟨h1, hne⟩, if_pos h1]
      simp
    · rw [if_neg (fun hc => h1 hc.1), if_neg h1]
      by_cases h2 : sz + entSize e ≥ maxSize
      · rw [if_pos h2]
        rw [accumUntil_ge _ _ _ (by omega)]
        simp
      · rw [if_neg h2]
        rw [ih (fun w hw => hwf w (List.mem_cons_of_mem _ hw))
          (sz + entSize e) (e :: acc) (by simp)]
        simp

theorem entriesLoop_top (maxSize : Nat) (vs : List Bytes)
    (hwf : ∀ v ∈ vs, (unmarshalEntry v).isSome) :
    entriesLoop maxSize vs 0 []
      = some (entriesSpec maxSize (vs.filterMap unmarshalEntry)) := by
  cases vs with
  | nil => rfl
  | cons v vs =>
    obtain ⟨e, he⟩ := Option.isSome_iff_exists.1
      (hwf v (List.mem_cons_self _ _))
    have hfm : (v :: vs).filterMap unmarshalEntry
        = e :: vs.filterMap unmarshalEntry := by
      simp [List.filterMap_cons, he]
    simp only [entriesLoop, he, hfm, entriesSpec]
    rw [if_neg (by simp)]
    by_cases h2 : 0 + entSize e ≥ maxSize
    · rw [if_pos h2]
      rw [accumUntil_ge _ _ _ (by omega)]
      rfl
    · rw [if_neg h2]
      rw [entriesLoop_acc maxSize vs
        (fun w hw => hwf w (List.mem_cons_of_mem _ hw))
        (0 + entSize e) [e] (by simp)]
      simp

/-- Claim C5: raftStorage.Entries(lo, hi, maxSize) returns the decoded
entries stored at indices in [lo, hi) in increasing index order (a
prefix of the decoded in-range sequence), accumulating entries until the
running serialised size strictly exceeds maxSize, and returning at least
one entry whenever the range is non-empty. -/
theorem C5_entries (s : RaftStore) (lo hi maxSize : Nat)
    (_hsorted : PairSorted s.entries)
    (hwf : ∀ v ∈ entRange s lo hi, (unmarshalEntry v).isSome) :
    raftEntries s lo hi maxSize
      = some (entriesSpec maxSize
          ((entRange s lo hi).filterMap unmarshalEntry)) ∧
    entriesSpec maxSize ((entRange s lo hi).filterMap unmarshalEntry)
      <+: (entRange s lo hi).filterMap unmarshalEntry ∧
    (entRange s lo hi ≠ [] →
      entriesSpec maxSize ((entRange s lo hi).filterMap unmarshalEntry)
        ≠ []) := by
  refine ⟨entriesLoop_top maxSize _ hwf, ?_, ?_⟩
  · cases hv : (entRange s lo hi).filterMap unmarshalEntry with
    | nil => simp [entriesSpec]
    | cons e t =>
      simp only [entriesSpec]
      obtain ⟨r, hr⟩ := accumUntil_prefix maxSize t (entSize e)
      exact ⟨r, by rw [List.cons_append, hr]⟩
  · intro hne
    cases hv : entRange s lo hi with
    | nil => exact absurd hv hne
    | cons v vs =>
      obtain ⟨e, he⟩ := Option.isSome_iff_exists.1
        (hwf v (by rw [hv]; exact List.mem_cons_self _ _))
      have hfm : (v :: vs).filterMap unmarshalEntry
          = e :: vs.filterMap unmarshalEntry := by
        simp [List.filterMap_cons, he]
      rw [hfm]
      simp [entriesSpec]

/-- Concrete decoded entries for the C5 witness. -/
def eW1 : REntry := ⟨0, 1, 1, [1]⟩

/-- Second concrete decoded entry for the C5 witness. -/
def eW2 : REntry := ⟨0, 1, 2, [2, 2]⟩

/-- Concrete store holding the marshalled witness entries. -/
def sW5 : RaftStore :=
  ⟨none, none, [(1, marshalEntry eW1), (2, marshalEntry eW2)]⟩

theorem C5_entries_witness :
    raftEntries sW5 1 3 1000 = some [eW1, eW2] ∧
    raftEntries sW5 1 3 1 = some [eW1] := by
  have h1 := (C5_entries sW5 1 3 1000 (by decide) (by decide)).1
  have h2 := (C5_entries sW5 1 3 1 (by decide) (by decide)).1
  rw [h1, h2]
  exact ⟨by decide, by decide⟩

/-- Outcome of raftLog.Start towards the consensus engine: the engine's
StartNode and RestartNode calls (etcd raft, outside src/) recorded with
their distinguishing arguments. -/
inductive StartOutcome
  | startNode (peers : List Nat)
  | restartNode (applied : Nat)
deriving DecidableEq

/-- Zero value of raftpb.HardState, as returned by InitialState on fresh
storage (no HS key). -/
def zeroHardState : HardState := ⟨0, 0, 0⟩

/-- Zero value of raftpb.Entry — the one dummy element of
`make([]raftpb.Entry, 1)` in raftLog.Start. -/
def zeroEntry : REntry := ⟨0, 0, 0, []⟩

/-- raftlog.go raftLog.Start(lo): with initialized storage (HS present)
restart the node with Applied = lo; on fresh storage panic (`none`)
unless lo = 0, then save the zero InitialState hard state together with
the one zero-value dummy entry and start the node with the configured
peer set. -/
def raftLogStart (s : RaftStore) (initialNodes : List Nat) (lo : Nat) :
    Option (StartOutcome × RaftStore) :=
  if isInitialized s then some (.restartNode lo, s)
  else if lo ≠ 0 then none
  else
    match raftSave s zeroHardState [zeroEntry] with
    | none => none
    | some s2 => some (.startNode initialNodes, s2)

/-- Claim C8 (amended): on fresh storage Start(0) writes the dummy log
entry at index 0 — the zero-value entry of `make([]raftpb.Entry, 1)`,
stored under key `E‖u64_be(0)` — and starts the node with the
configured peer set; on already-initialized storage it restarts the
node with the caller-supplied applied watermark lo. -/
theorem C8_start_spec (s : RaftStore) (peers : List Nat) (lo : Nat) :
    (s.hsVal = none → s.entries = [] → lo = 0 →
      raftLogStart s peers lo
        = some (.startNode peers,
            { s with hsVal := some (marshalHardState zeroHardState),
                     entries := [(0, marshalEntry zeroEntry)] })) ∧
    (∀ b, s.hsVal = some b →
      raftLogStart s peers lo = some (.restartNode lo, s)) := by
  constructor
  · intro h1 h2 h3
    rcases s with ⟨hsv, csv, ents⟩
    simp only at h1 h2
    subst h1
    subst h2
    subst h3
    rfl
  · intro b hb
    rcases s with ⟨hsv, csv, ents⟩
    simp only at hb
    subst hb
    rfl

/-- Fresh store for the C8 witness and counterexample. -/
def s0F : RaftStore := ⟨none, none, []⟩

/-- Initialized store for the C8 witness. -/
def s1F : RaftStore := ⟨some [1, 2], none, [(0, [0])]⟩

theorem C8_start_spec_witness :
    raftLogStart s0F [1] 0
      = some (.startNode [1],
          ⟨some (marshalHardState zeroHardState), none,
            [(0, marshalEntry zeroEntry)]⟩) ∧
    raftLogStart s1F [2] 7 = some (.restartNode 7, s1F) := by
  exact ⟨(C8_start_spec s0F [1] 0).1 rfl rfl rfl,
    (C8_start_spec s1F [2] 7).2 [1, 2] rfl⟩

theorem C8_start_counterexample :
    raftLogStart s0F [1] 0
      = some (.startNode [1],
          ⟨some (marshalHardState zeroHardState), none,
            [(0, marshalEntry zeroEntry)]⟩) ∧
    ((raftLogStart s0F [1] 0).map (fun r => entGet r.2.entries 1))
      = some none ∧
    ((raftLogStart s0F [1] 0).map (fun r => entGet r.2.entries 0))
      = some (some (marshalEntry zeroEntry)) := by
  exact ⟨by decide, by decide, by decide⟩

/-- Modelled from the spec §3 (client.proto message SignedEntryUpdate):
the decoded view — the signed update segment (kept as bytes, "signed
field, do not re-encode"), the new and old signatures, and the optional
profile. -/
structure SignedEntryUpdate where
  update : Bytes
  newSig : Bytes
  oldSig : Bytes
  profile : Option Bytes
deriving DecidableEq

/-- Modelled from the spec §3 (client.proto message LookupProof), carried
opaquely by the UpdateProfile stub. -/
structure LookupProof where
  userId : Bytes
  indexProof : Bytes
  ratifications : List Bytes
  treeProof : Bytes
  profile : Option Bytes
deriving DecidableEq

/-- The keyserver's UpdateProfile handler (src/unnamed/part_000): it
returns a nil LookupProof together with the error "UpdateProfile not
implemented" and touches nothing; the keyserver state (of arbitrary
type) is threaded explicitly and returned unchanged. -/
def keyserverUpdateProfile {σ : Type} (ks : σ) (_req : SignedEntryUpdate) :
    (Option LookupProof × Option String) × σ :=
  ((none, some "UpdateProfile not implemented"), ks)

/-- Claim C9: for every request, the keyserver's UpdateProfile handler
returns a nil LookupProof together with a "not implemented" error; it
never succeeds and mutates no state. -/
theorem C9_update_profile_stub :
    ∀ (σ : Type) (ks : σ) (req : SignedEntryUpdate),
      keyserverUpdateProfile ks req
        = ((none, some "UpdateProfile not implemented"), ks) :=
  fun _ _ _ => rfl

/-- The preserve-encoding wrapper around SignedEntryUpdate
(SignedEntryUpdate.pr.go): the decoded view paired with the preserved
original bytes. -/
structure SignedEntryUpdate_PreserveEncoding where
  signedEntryUpdate : SignedEntryUpdate
  preservedEncoding : Bytes
deriving DecidableEq

/-- SignedEntryUpdate.pr.go Unmarshal: keep the input bytes verbatim and
parse them into the decoded view with the generated message parser
(`SignedEntryUpdate.Unmarshal`, generated code outside src/, abstracted
as the `parse` parameter); a parse error is an error return (`none`). -/
def SignedEntryUpdate_PreserveEncoding.Unmarshal
    (parse : Bytes → Option SignedEntryUpdate) (data : Bytes) :
    Option SignedEntryUpdate_PreserveEncoding :=
  match parse data with
  | none => none
  | some v => some ⟨v, data⟩

/-- SignedEntryUpdate.pr.go Size/MarshalTo/Marshal: the marshalled form
is the preserved byte string, copied verbatim into a buffer of its own
length. -/
def SignedEntryUpdate_PreserveEncoding.Marshal
    (m : SignedEntryUpdate_PreserveEncoding) : Bytes :=
  m.preservedEncoding

/-- SignedEntryUpdate.pr.go Equal: compares only the embedded decoded
SignedEntryUpdate values (the generated field-wise equality of the inner
message, outside src/, modelled as structural equality). -/
def SignedEntryUpdate_PreserveEncoding.Equal
    (m1 m2 : SignedEntryUpdate_PreserveEncoding) : Bool :=
  m1.signedEntryUpdate == m2.signedEntryUpdate

/-- SignedEntryUpdate.pr.go VerboseEqual: no error for equal decoded
views, an error message otherwise; the preserved bytes never enter. -/
def SignedEntryUpdate_PreserveEncoding.VerboseEqual
    (m1 m2 : SignedEntryUpdate_PreserveEncoding) : Option String :=
  if m1.signedEntryUpdate = m2.signedEntryUpdate then none
  else some "SignedEntryUpdate mismatch"

/-- Claim C4: every byte string accepted by the preserve-encoding
Unmarshal is re-emitted by Marshal exactly (the preserved original
bytes, independent of the decoded view and of any serialiser), and
Equal/VerboseEqual compare only the decoded views, ignoring the
preserved bytes. -/
theorem C4_preserve_encoding (parse : Bytes → Option SignedEntryUpdate)
    (b : Bytes) (m : SignedEntryUpdate_PreserveEncoding)
    (hm : SignedEntryUpdate_PreserveEncoding.Unmarshal parse b = some m) :
    m.Marshal = b ∧
    (∀ m2, m.Equal m2 = true ↔
      m.signedEntryUpdate = m2.signedEntryUpdate) ∧
    (∀ m2, m.VerboseEqual m2 = none ↔
      m.signedEntryUpdate = m2.signedEntryUpdate) := by
  unfold SignedEntryUpdate_PreserveEncoding.Unmarshal at hm
  cases hp : parse b with
  | none => rw [hp] at hm; cases hm
  | some v =>
    rw [hp] at hm
    simp only [Option.some.injEq] at hm
    refine ⟨by rw [← hm]; rfl, fun m2 => ?_, fun m2 => ?_⟩
    · simp [SignedEntryUpdate_PreserveEncoding.Equal]
    · simp only [SignedEntryUpdate_PreserveEncoding.VerboseEqual]
      by_cases he : m.signedEntryUpdate = m2.signedEntryUpdate
      · simp [he]
      · simp [he]

/-- Concrete non-canonical parser for the C4 witness: it decodes any
byte string, and re-serialising its decoded view could never reproduce
the input (the view forgets all but two bytes). -/
def parseX : Bytes → Option SignedEntryUpdate :=
  fun b => some ⟨b.take 2, [1], [], none⟩

/-- Concrete wrapper value decoded from [1, 2, 3] for the C4 witness. -/
def mX : SignedEntryUpdate_PreserveEncoding :=
  (SignedEntryUpdate_PreserveEncoding.Unmarshal parseX [1, 2, 3]).getD
    ⟨⟨[], [], [], none⟩, []⟩

theorem C4_preserve_encoding_witness :
    SignedEntryUpdate_PreserveEncoding.Unmarshal parseX [1, 2, 3]
      = some mX ∧
    mX.Marshal = [1, 2, 3] ∧
    mX.Equal ⟨mX.signedEntryUpdate, [9, 9]⟩ = true := by
  have h1 : SignedEntryUpdate_PreserveEncoding.Unmarshal parseX [1, 2, 3]
      = some mX := by decide
  have h2 := C4_preserve_encoding parseX [1, 2, 3] mX h1
  exact ⟨h1, h2.1, (h2.2.1 _).2 rfl⟩

theorem OS2IP_natBEfix (w n : Nat) (h : n < 2 ^ (8 * w)) :
    OS2IP (natBEfix w n) = n := by
  induction w generalizing n with
  | zero =>
    simp only [Nat.mul_zero, pow_zero, Nat.lt_one_iff] at h
    simp [natBEfix, OS2IP, h]
  | succ w ih =>
    have hdiv : n / 256 < 2 ^ (8 * w) := by
      apply Nat.div_lt_of_lt_mul
      have : 2 ^ (8 * (w + 1)) = 2 ^ (8 * w) * 256 := by ring
      omega
    simp only [natBEfix]
    rw [OS2IP_append, ih _ hdiv]
    simp only [List.length_cons, List.length_nil, pow_one, OS2IP,
      List.foldl_cons, List.foldl_nil]
    omega

/-- Injectivity of the 8-byte big-endian key encoding on 64-bit values:
distinct entry indices occupy distinct `E‖u64_be(i)` keys, which
justifies indexing the modelled store by the numeric index. -/
theorem u64be_inj (i j : Nat) (hi : i < 2 ^ 64) (hj : j < 2 ^ 64)
    (h : u64be i = u64be j) : i = j := by
  have h1 : OS2IP (u64be i) = i := OS2IP_natBEfix 8 i (by norm_num at hi ⊢; omega)
  have h2 : OS2IP (u64be j) = j := OS2IP_natBEfix 8 j (by norm_num at hj ⊢; omega)
  rw [← h1, ← h2, h]
